import Mathlib

/-!
Verification of the `String`/`StringView` library (src/str.h, src/str.cpp).

Shallow embedding conventions:
* A C++ string is a list of byte values (`List Nat`, each entry < 256).
  The reference platform has a signed 8-bit `char`, so integer promotion of
  a byte `b` yields `b` when `b < 128` and `b - 256` otherwise.
* Calls to the external `error(msg)` collaborator are modelled with
  `Except String`, carrying the source's message.
* The mutation-version protocol is modelled by a `Text` record holding the
  byte buffer and the version counter; `VersionTracker::update` is a
  counter increment.
* Loops whose termination is not structural (`stringSplit`,
  `String::replaceAll`) take an explicit fuel argument; the entry points
  pass `length + 1`, which dominates the loop's decreasing measure
  (each iteration consumes at least one byte of the remaining suffix).
-/

set_option maxRecDepth 100000

namespace CppStr

/-- Bytes of a Lean string literal, used to write concrete test inputs. -/
def byteStr (s : String) : List Nat :=
  s.data.map Char.toNat

/-- C locale `isspace` on a byte (space, \t, \n, \v, \f, \r). -/
def isspaceB (b : Nat) : Bool :=
  b = 32 || (9 ≤ b && b ≤ 13)

/-- C locale `isalnum` on a byte: ASCII digits and letters only (the glibc
table yields false for bytes ≥ 0x80, whose promoted value is negative). -/
def isalnumB (b : Nat) : Bool :=
  (48 ≤ b && b ≤ 57) || (65 ≤ b && b ≤ 90) || (97 ≤ b && b ≤ 122)

/-- C locale `tolower` on a byte: maps A-Z to a-z, fixes everything else. -/
def tolowerB (b : Nat) : Nat :=
  if 65 ≤ b ∧ b ≤ 90 then b + 32 else b

/-- C locale `toupper` on a byte: maps a-z to A-Z, fixes everything else. -/
def toupperB (b : Nat) : Nat :=
  if 97 ≤ b ∧ b ≤ 122 then b - 32 else b

/-- The value of a byte as a digit character (0-9, A-Z, a-z), if any.
This is the digit alphabet used by `strtoll` for bases up to 36. -/
def digitVal (b : Nat) : Option Nat :=
  if 48 ≤ b ∧ b ≤ 57 then some (b - 48)
  else if 65 ≤ b ∧ b ≤ 90 then some (b - 55)
  else if 97 ≤ b ∧ b ≤ 122 then some (b - 87)
  else none

/-- Whether a byte is a valid digit in the given base. -/
def isDigitInBase (base b : Nat) : Bool :=
  match digitVal b with
  | some v => decide (v < base)
  | none => false

/-- Model of `std::string::find(ptr, pos, count)` (also backing
`String::find`, src/str.cpp:105-114): the smallest index `i ≥ start` such
that the pattern `d` occurs in `s` at `i` (for an empty `d` this is
`start` itself whenever `start ≤ s.length`); `none` when no such index
exists. -/
def strFind (s d : List Nat) (start : Nat) : Option Nat :=
  (List.range (s.length + 1)).find? fun i => decide (start ≤ i) && d.isPrefixOf (s.drop i)

/-- The owning string type of src/str.h: a byte buffer `_data` plus the
`VersionTracker` counter. -/
structure Text where
  data : List Nat
  version : Nat
deriving DecidableEq

/-- Model of `String::updateVersion` (src/str.cpp:307-309):
`VersionTracker::update` advances the counter. -/
def updateVersion (t : Text) : Text :=
  { t with version := t.version + 1 }

/-- Model of `String::toLowerCase` (src/str.cpp:173-175): transforms every
byte with `tolower`. The source does not call `updateVersion`. -/
def toLowerCase (t : Text) : Text :=
  { t with data := t.data.map tolowerB }

/-- Model of `String::toUpperCase` (src/str.cpp:177-179): transforms every
byte with `toupper`. The source does not call `updateVersion`. -/
def toUpperCase (t : Text) : Text :=
  { t with data := t.data.map toupperB }

/-- Model of the anonymous-namespace `trimStartInPlace` (src/str.cpp:195-204):
erase the maximal leading run of whitespace. -/
def trimStartL (s : List Nat) : List Nat :=
  s.dropWhile isspaceB

/-- Model of `trimEndInPlace` (src/str.cpp:207-216): erase the maximal
trailing run of whitespace. -/
def trimEndL (s : List Nat) : List Nat :=
  (s.reverse.dropWhile isspaceB).reverse

/-- Model of `trimInPlace` (src/str.cpp:219-222): trim the end, then the
start. -/
def trimL (s : List Nat) : List Nat :=
  trimStartL (trimEndL s)

/-- Model of `String::trim` (src/str.cpp:235-238): trim in place, then
bump the version. -/
def trim (t : Text) : Text :=
  updateVersion { t with data := trimL t.data }

/-- Model of `StringView::operator[]` (src/str.cpp:51-56). A view is the
byte range it delineates; every constructor (single char with its inline
terminator, C string, `std::string::data()`, `String::c_str()`) places a
zero terminator one past the end of the range, so `_begin[size()]`, the
one index past the last character that the bounds check admits, reads
that terminator byte. -/
def viewGet (v : List Nat) (index : Int) : Except String Nat :=
  if index < 0 ∨ index > (v.length : Int) then .error "String index out of range."
  else if index = (v.length : Int) then .ok 0
  else .ok (v.getD index.toNat 0)

/-- Model of `String::find` (src/str.cpp:105-114): a negative start index
raises; otherwise `std::string::find` runs and `npos` is mapped to -1. -/
def find (s t : List Nat) (startIndex : Int) : Except String Int :=
  if startIndex < 0 then
    .error "String::find: Start index must be greater than or equal to zero."
  else
    match strFind s t startIndex.toNat with
    | none => .ok (-1)
    | some i => .ok (i : Int)

/-- Model of the non-const `String::operator[]` (src/str.cpp:80-83) used as
the target of an indexed write `text[index] = c`: `checkIndex(index, 0,
length()-1)` raises outside the range, and the write lands in `_data`
through the returned reference, which cannot touch the version counter. -/
def setChar (t : Text) (index : Int) (c : Nat) : Except String Text :=
  if index < 0 ∨ index > (t.data.length : Int) - 1 then
    .error "String::operator[]: Index is out of range"
  else
    .ok { t with data := t.data.set index.toNat c }

/-- Model of the const `String::operator[]` (src/str.cpp:75-78): the same
bounds check, then a read of `_data[index]`. -/
def getChar (t : Text) (index : Int) : Except String Nat :=
  if index < 0 ∨ index > (t.data.length : Int) - 1 then
    .error "String::operator[]: Index is out of range"
  else
    .ok (t.data.getD index.toNat 0)

/-- One byte occurrence test: the pattern `d` occurs in `s` at index `i`. -/
def occursAt (d s : List Nat) (i : Nat) : Bool :=
  d.isPrefixOf (s.drop i)

/-- The loop of `stringSplit` (src/str.cpp:271-280), with fuel: find the
first occurrence of the delimiter, keep the non-empty piece before it
(coalescing empty tokens), drop through the delimiter and repeat; when no
occurrence remains, a non-empty remainder becomes the final token. The
entry point passes fuel `length + 1`: every iteration erases
`index + d.length ≥ 1` bytes, so the fuel never runs out; the fuel-0 arm
repeats the loop-exit arm. -/
def splitLoop (d : List Nat) : Nat → List Nat → List (List Nat)
  | 0, str2 => if 0 < str2.length then [str2] else []
  | fuel + 1, str2 =>
    match strFind str2 d 0 with
    | none => if 0 < str2.length then [str2] else []
    | some i =>
      (if i ≠ 0 then [str2.take i] else []) ++ splitLoop d fuel (str2.drop (i + d.length))

/-- Model of `stringSplit` (src/str.cpp:260-287), backing `String::split`:
an empty delimiter raises, otherwise the scan loop runs. -/
def stringSplit (str delimiter : List Nat) : Except String (List (List Nat)) :=
  if delimiter.length = 0 then
    .error "stringSplit: Delimiter cannot be the empty string."
  else
    .ok (splitLoop delimiter (str.length + 1) str)

/-- Model of `String::join` (src/str.cpp:445-454): concatenate the pieces
with the delimiter strictly between consecutive elements. -/
def join (v : List (List Nat)) (delimiter : List Nat) : List Nat :=
  match v with
  | [] => []
  | [x] => x
  | x :: xs => x ++ delimiter ++ join xs delimiter

/-- The loop of `String::replaceAll` (src/str.cpp:301-304), with fuel:
find the target at or after the search position, splice in the
replacement, and continue searching just past the replacement. The entry
point passes fuel `length + 1`: each iteration shrinks the suffix after
the search position by `target.length ≥ 1` bytes. -/
def replaceAllLoop (target repl : List Nat) : Nat → List Nat → Nat → List Nat
  | 0, s, _ => s
  | fuel + 1, s, start =>
    match strFind s target start with
    | none => s
    | some i =>
      replaceAllLoop target repl fuel (s.take i ++ repl ++ s.drop (i + target.length))
        (i + repl.length)

/-- Model of `String::replaceAll` (src/str.cpp:293-305): an empty target
raises, otherwise the replacement loop runs from position 0. -/
def replaceAll (s target repl : List Nat) : Except String (List Nat) :=
  if target.length = 0 then
    .error "String::replaceAll: Cannot replace the empty string."
  else
    .ok (replaceAllLoop target repl (s.length + 1) s 0)

/-- Digit-run scanner of `strtoll`: accumulate the value of the maximal
leading run of digits valid in `base`, returning the value and how many
digits were consumed. -/
def parseDigitsAcc (base : Nat) : List Nat → Nat → Nat → Nat × Nat
  | [], acc, cnt => (acc, cnt)
  | b :: bs, acc, cnt =>
    match digitVal b with
    | some v => if v < base then parseDigitsAcc base bs (acc * base + v) (cnt + 1) else (acc, cnt)
    | none => (acc, cnt)

/-- Head test used by the hexadecimal-prefix rule of `strtoll`. -/
def headIsHexDigit (s : List Nat) : Bool :=
  match s with
  | c :: _ => isDigitInBase 16 c
  | [] => false

/-- Base-16 prefix rule of `strtoll`: a leading `0x`/`0X` is skipped when
the base is 16 and a hexadecimal digit follows it; otherwise the subject
sequence starts at the `0`. -/
def skipHex16 (base : Nat) (s : List Nat) : List Nat :=
  if base = 16 ∧ s.head? = some 48 ∧ (s.tail.head? = some 120 ∨ s.tail.head? = some 88)
      ∧ headIsHexDigit s.tail.tail then
    s.tail.tail
  else s

/-- Subject-sequence scanner shared by `std::stoll` and `std::stoull`:
skip whitespace, take one optional sign, apply the base-16 prefix rule,
then accumulate the maximal digit run; `none` when no digit was consumed
(the `invalid_argument` case). Returns the sign and the magnitude. -/
def strtolCore (base : Nat) (s : List Nat) : Option (Bool × Nat) :=
  let s1 := s.dropWhile isspaceB
  let neg : Bool := decide (s1.head? = some 45)
  let s2 := if s1.head? = some 43 ∨ s1.head? = some 45 then s1.tail else s1
  let s3 := skipHex16 base s2
  let r := parseDigitsAcc base s3 0 0
  if r.2 = 0 then none else some (neg, r.1)

/-- Model of `std::stoll(str, nullptr, base)`: the signed value, or the
exception it throws (`invalid_argument` when no digits, `out_of_range`
when the value leaves `long long`). -/
def stollM (s : List Nat) (base : Nat) : Except String Int :=
  match strtolCore base s with
  | none => .error "invalid_argument"
  | some (neg, m) =>
    if neg then
      if (m : Int) ≤ 2 ^ 63 then .ok (-(m : Int)) else .error "out_of_range"
    else
      if (m : Int) ≤ 2 ^ 63 - 1 then .ok (m : Int) else .error "out_of_range"

/-- Model of `std::stoull(str, nullptr, base)`: the unsigned value (a
minus sign wraps modulo 2^64), or the exception it throws. -/
def stoullM (s : List Nat) (base : Nat) : Except String Int :=
  match strtolCore base s with
  | none => .error "invalid_argument"
  | some (neg, m) =>
    if m ≤ 2 ^ 64 - 1 then
      .ok (if neg then (2 ^ 64 - (m : Int)) % 2 ^ 64 else (m : Int))
    else .error "out_of_range"

/-- A target integral type `T` of the conversion engine: its signedness
and representable range, as used by `numeric_limits<T>::min()/max()`. -/
structure IntType where
  signed : Bool
  tmin : Int
  tmax : Int
deriving DecidableEq

/-- The C++ `int` of the reference platform. -/
def intT : IntType :=
  ⟨true, -(2 ^ 31), 2 ^ 31 - 1⟩

/-- The C++ `unsigned int` of the reference platform. -/
def uintT : IntType :=
  ⟨false, 0, 2 ^ 32 - 1⟩

/-- Model of `stanfordcpplib::string::radixTo` (src/str.h:640-657) wrapped
in `radixConvert` (src/str.h:622-637): the signed overload runs
`std::stoll`, the unsigned overload first rejects an empty string or a
leading minus sign and then runs `std::stoull`; any exception of the
intermediate conversion (including the raised unsigned-guard error, which
derives from `std::exception`) is caught and reported as the conversion
error, and an in-range result is accepted while an out-of-range one is
also reported as the conversion error. -/
def radixTo (T : IntType) (str : List Nat) (radix : Nat) : Except String Int :=
  let conv : Except String Int :=
    if T.signed then stollM str radix
    else if str = [] ∨ str.head? = some 45 then .error "Unsigned values can't be negative."
    else stoullM str radix
  match conv with
  | .error _ => .error "String::to: Could not convert string to that type."
  | .ok v =>
    if T.tmin ≤ v ∧ v ≤ T.tmax then .ok v
    else .error "String::to: Could not convert string to that type."

/-- Model of the radix overload of `String::to` (src/str.h:673-682): an
out-of-range radix raises the caller error, otherwise the trimmed text is
handed to `radixTo`. -/
def stringToRadix (T : IntType) (s : List Nat) (radix : Int) : Except String Int :=
  if radix < 2 ∨ radix > 36 then
    .error "String::to: Radix must be between 2 and 36, inclusive."
  else
    radixTo T (trimL s) radix.toNat

/-- Model of the radix overload of `String::is` (src/str.h:691-707): an
out-of-range radix raises its own caller error; otherwise `String::to`
runs inside a try block and a raised conversion error becomes `false`. -/
def stringIsRadix (T : IntType) (s : List Nat) (radix : Int) : Except String Bool :=
  if radix < 2 ∨ radix > 36 then
    .error "String::is: Radix must be between 2 and 36, inclusive."
  else
    match stringToRadix T s radix with
    | .ok _ => .ok true
    | .error _ => .ok false

/-- An uppercase hexadecimal digit character. -/
def hexDigitU (n : Nat) : Nat :=
  if n < 10 then 48 + n else 55 + n

/-- Big-endian uppercase hexadecimal digits of `n`, with enough fuel for
32-bit values; no digits for 0. -/
def hexDigitsCore : Nat → Nat → List Nat
  | 0, _ => []
  | fuel + 1, n => if n = 0 then [] else hexDigitsCore fuel (n / 16) ++ [hexDigitU (n % 16)]

/-- What `operator<<` prints for an `int` under `std::hex` and
`std::uppercase`: the digits of its value as `unsigned`, at least one. -/
def hexUpper (n : Nat) : List Nat :=
  if n = 0 then [48] else hexDigitsCore 16 n

/-- The effect of `setw(2)` with `setfill('0')` (right adjustment): pad
the printed digits on the left with `0` up to width 2. -/
def padTo2 (l : List Nat) : List Nat :=
  if l.length < 2 then List.replicate (2 - l.length) 48 ++ l else l

/-- Integer promotion `int(c)` of a byte read from a `char` on the
reference platform, where `char` is signed 8 bits. -/
def intOfChar (b : Nat) : Int :=
  if b < 128 then (b : Int) else (b : Int) - 256

/-- The `unsigned` value that `operator<<` formats for an `int` under
`std::hex`: the two's-complement 32-bit pattern. -/
def uint32Of (v : Int) : Nat :=
  (v % 2 ^ 32).toNat

/-- Per-byte action of `String::urlEncoded` (src/str.cpp:491-508):
alphanumerics and the unreserved set pass through, a space becomes `+`,
any other byte is printed as `%` followed by `setw(2) << int(c)` in
uppercase hexadecimal with fill `0`. -/
def encodeByte (b : Nat) : List Nat :=
  if isalnumB b || b = 45 || b = 95 || b = 46 || b = 126 || b = 42 then [b]
  else if b = 32 then [43]
  else 37 :: padTo2 (hexUpper (uint32Of (intOfChar b)))

/-- Model of `String::urlEncoded` (src/str.cpp:491-508): the per-byte
encodings concatenated in order. -/
def urlEncoded (s : List Nat) : List Nat :=
  (s.map encodeByte).flatten

/-- Model of `std::lexicographical_compare` over two byte ranges, the body
of `String::operator<` (src/str.cpp:349-351). -/
def lexLt : List Nat → List Nat → Bool
  | _, [] => false
  | [], _ :: _ => true
  | a :: as, b :: bs => if a < b then true else if b < a then false else lexLt as bs

/-- Model of the member `String::operator<` (src/str.cpp:349-351). -/
def memberLt (s x : List Nat) : Bool :=
  lexLt s x

/-- Model of the member `String::operator>=` (src/str.cpp:371-373):
`!(*this < lhs)`. -/
def memberGe (s x : List Nat) : Bool :=
  !lexLt s x

/-- Model of the global `operator<=` forwarder (src/str.h:477-479):
`lhs <= rhs` evaluates `rhs >= lhs` through the member operator. -/
def globalLe (x s : List Nat) : Bool :=
  memberGe s x

mutual

/-- Model of the member `String::operator>` (src/str.cpp:353-355): its
body `lhs < StringView(*this)` resolves to the global `operator<`
template after converting the right operand back to a `String`, so the
call re-enters `globalLtF`; the fuel counts the remaining call depth and
`none` means the call chain did not finish. -/
def memberGtF : Nat → List Nat → List Nat → Option Bool
  | 0, _, _ => none
  | fuel + 1, s, x => globalLtF fuel x s

/-- Model of the global `operator<` forwarder (src/str.h:471-474):
`lhs < rhs` evaluates `rhs > lhs` through the member operator. -/
def globalLtF : Nat → List Nat → List Nat → Option Bool
  | 0, _, _ => none
  | fuel + 1, x, s => memberGtF fuel s x

end

/-- Model of the global `operator>` forwarder (src/str.h:486-489): its
body is `rhs > lhs`, entering the member `String::operator>`. -/
def globalGtF : Nat → List Nat → List Nat → Option Bool
  | 0, _, _ => none
  | fuel + 1, x, s => memberGtF fuel s x

/-- Value of a run of digit characters in the given base, most
significant digit first. -/
def digitsVal (base : Nat) (ds : List Nat) : Nat :=
  ds.foldl (fun acc b => acc * base + (digitVal b).getD 0) 0

/-- Value carried by an optional sign byte in front of a magnitude. -/
def signedVal (sgn : List Nat) (m : Nat) : Int :=
  if sgn = [45] then -(m : Int) else (m : Int)

/-- The no-leading, no-trailing, no-adjacent-runs hypothesis of the
split/join round trip: every occurrence of the delimiter `d` in `s`
starts after position 0, ends before the end of `s`, and is not
immediately followed by another occurrence. -/
def GoodSplit (d s : List Nat) : Prop :=
  ∀ i, i < s.length + 1 → occursAt d s i = true →
    0 < i ∧ i + d.length < s.length ∧ occursAt d s (i + d.length) = false

/-! ### Supporting lemmas -/

theorem getD_set_self (l : List Nat) (n c : Nat) (h : n < l.length) :
    (l.set n c).getD n 0 = c := by
  induction l generalizing n with
  | nil => simp at h
  | cons a as ih =>
    cases n with
    | zero => rfl
    | succ m => simpa using ih m (by simpa using h)

theorem strFind_eq_none_of_start_gt (s d : List Nat) (start : Nat)
    (h : s.length < start) : strFind s d start = none := by
  unfold strFind
  rw [List.find?_eq_none]
  intro i hi
  rw [List.mem_range] at hi
  simp only [Bool.and_eq_true, decide_eq_true_eq, not_and]
  intro h1
  omega

theorem memberGtF_globalLtF_none :
    ∀ fuel, (∀ x s, memberGtF fuel s x = none) ∧ (∀ x s, globalLtF fuel x s = none) := by
  intro fuel
  induction fuel with
  | zero => exact ⟨fun _ _ => rfl, fun _ _ => rfl⟩
  | succ n ih =>
    refine ⟨fun x s => ?_, fun x s => ?_⟩
    · rw [memberGtF]
      exact ih.2 x s
    · rw [globalLtF]
      exact ih.1 x s

theorem isPrefixOf_decomp :
    ∀ (d l : List Nat), d.isPrefixOf l = true → l = d ++ l.drop d.length := by
  intro d
  induction d with
  | nil => intro l _; simp
  | cons a as ih =>
    intro l h
    cases l with
    | nil => simp [List.isPrefixOf] at h
    | cons b bs =>
      simp only [List.isPrefixOf, Bool.and_eq_true, beq_iff_eq] at h
      obtain ⟨hab, hrest⟩ := h
      subst hab
      simpa using ih bs hrest

theorem occursAt_decomp (d s : List Nat) (i : Nat) (h : occursAt d s i = true) :
    s = s.take i ++ d ++ s.drop (i + d.length) := by
  have h2 := isPrefixOf_decomp d (s.drop i) h
  calc s = s.take i ++ s.drop i := (List.take_append_drop i s).symm
    _ = s.take i ++ (d ++ (s.drop i).drop d.length) := by rw [← h2]
    _ = s.take i ++ d ++ s.drop (i + d.length) := by
        rw [List.drop_drop, ← List.append_assoc]

theorem occursAt_drop (d s : List Nat) (k j : Nat) :
    occursAt d (s.drop k) j = occursAt d s (k + j) := by
  unfold occursAt
  rw [List.drop_drop]

theorem strFind_some_spec (s d : List Nat) (start i : Nat)
    (h : strFind s d start = some i) :
    start ≤ i ∧ i < s.length + 1 ∧ occursAt d s i = true := by
  unfold strFind at h
  have hmem := List.mem_of_find?_eq_some h
  have hp := List.find?_some h
  rw [List.mem_range] at hmem
  simp only [Bool.and_eq_true, decide_eq_true_eq] at hp
  exact ⟨hp.1, hmem, hp.2⟩

theorem GoodSplit_drop (d s : List Nat) (i : Nat) (hg : GoodSplit d s)
    (hi : i < s.length + 1) (hocc : occursAt d s i = true) :
    GoodSplit d (s.drop (i + d.length)) := by
  have hmain := hg i hi hocc
  intro j hj hoj
  rw [List.length_drop] at hj
  rw [occursAt_drop] at hoj
  have hback := hg (i + d.length + j) (by omega) hoj
  refine ⟨?_, ?_, ?_⟩
  · rcases Nat.eq_zero_or_pos j with hj0 | hjpos
    · subst hj0
      rw [Nat.add_zero] at hoj
      rw [hmain.2.2] at hoj
      exact absurd hoj (by simp)
    · exact hjpos
  · have := hback.2.1
    rw [List.length_drop]
    omega
  · rw [occursAt_drop, ← Nat.add_assoc]
    exact hback.2.2

theorem join_cons (x : List Nat) (xs : List (List Nat)) (d : List Nat) (h : xs ≠ []) :
    join (x :: xs) d = x ++ d ++ join xs d := by
  cases xs with
  | nil => exact absurd rfl h
  | cons y ys => rfl

theorem splitLoop_join (d : List Nat) (hd : d ≠ []) :
    ∀ fuel s, s.length ≤ fuel → GoodSplit d s →
      join (splitLoop d fuel s) d = s ∧ (s ≠ [] → splitLoop d fuel s ≠ []) := by
  intro fuel
  induction fuel with
  | zero =>
    intro s hlen hg
    have hnil : s = [] := List.eq_nil_of_length_eq_zero (Nat.le_zero.mp hlen)
    subst hnil
    exact ⟨rfl, fun h => absurd rfl h⟩
  | succ n ih =>
    intro s hlen hg
    rcases hfind : strFind s d 0 with _ | i
    · by_cases hs : s = []
      · subst hs
        simp only [splitLoop, hfind, List.length_nil, lt_self_iff_false, if_false]
        exact ⟨rfl, fun h => absurd rfl h⟩
      · have hpos : 0 < s.length := List.length_pos.mpr hs
        simp only [splitLoop, hfind, if_pos hpos]
        exact ⟨rfl, fun _ => by simp⟩
    · obtain ⟨_, hibound, hocc⟩ := strFind_some_spec s d 0 i hfind
      obtain ⟨hipos, hend, _⟩ := hg i hibound hocc
      have hd1 : 0 < d.length := List.length_pos.mpr hd
      have hlen_drop : (s.drop (i + d.length)).length = s.length - (i + d.length) :=
        List.length_drop _ _
      have hrec := ih (s.drop (i + d.length)) (by omega)
        (GoodSplit_drop d s i hg hibound hocc)
      have hine : i ≠ 0 := Nat.pos_iff_ne_zero.mp hipos
      simp only [splitLoop, hfind]
      rw [if_pos hine]
      have hne : s.drop (i + d.length) ≠ [] := by
        intro hnil
        rw [hnil] at hlen_drop
        simp at hlen_drop
        omega
      have htail := hrec.2 hne
      rw [List.singleton_append]
      constructor
      · rw [join_cons _ _ _ htail, hrec.1]
        exact (occursAt_decomp d s i hocc).symm
      · intro _
        exact List.cons_ne_nil _ _

theorem digit_byte_range (base b : Nat) (h : isDigitInBase base b = true) :
    48 ≤ b ∧ b ≤ 122 := by
  unfold isDigitInBase at h
  rcases hdv : digitVal b with _ | v
  · rw [hdv] at h
    cases h
  · unfold digitVal at hdv
    split_ifs at hdv <;> omega

theorem digit_not_special (base b : Nat) (h : isDigitInBase base b = true) :
    isspaceB b = false ∧ b ≠ 43 ∧ b ≠ 45 := by
  have hr := digit_byte_range base b h
  refine ⟨?_, by omega, by omega⟩
  unfold isspaceB
  simp only [Bool.or_eq_false_iff, Bool.and_eq_false_iff, decide_eq_false_iff_not]
  omega

theorem parseDigitsAcc_append (base : Nat) (ds rest : List Nat) (acc cnt : Nat)
    (hdig : ∀ b ∈ ds, isDigitInBase base b = true)
    (hrest : ∀ c, rest.head? = some c → isDigitInBase base c = false) :
    parseDigitsAcc base (ds ++ rest) acc cnt
      = (ds.foldl (fun a b => a * base + (digitVal b).getD 0) acc, cnt + ds.length) := by
  induction ds generalizing acc cnt with
  | nil =>
    simp only [List.nil_append, List.foldl_nil, List.length_nil, Nat.add_zero]
    cases rest with
    | nil => rfl
    | cons c cs =>
      have hc := hrest c rfl
      rcases hdv : digitVal c with _ | v
      · simp only [parseDigitsAcc, hdv]
      · have hc2 : ¬ v < base := by simpa [isDigitInBase, hdv] using hc
        simp only [parseDigitsAcc, hdv, if_neg hc2]
  | cons b bs ih =>
    have hb := hdig b (List.mem_cons_self _ _)
    rcases hdv : digitVal b with _ | v
    · exfalso
      simp [isDigitInBase, hdv] at hb
    · have hvlt : v < base := by simpa [isDigitInBase, hdv] using hb
      simp only [List.cons_append, parseDigitsAcc, hdv, if_pos hvlt, List.foldl_cons,
        List.length_cons, Option.getD_some, List.append_eq]
      rw [ih (acc * base + v) (cnt + 1) (fun x hx => hdig x (List.mem_cons_of_mem _ hx))]
      rw [Prod.mk.injEq]
      exact ⟨rfl, by omega⟩

theorem strtolCore_append (base : Nat) (sgn ds rest : List Nat)
    (hsgn : sgn = [] ∨ sgn = [43] ∨ sgn = [45])
    (hds : ds ≠ [])
    (hdig : ∀ b ∈ ds, isDigitInBase base b = true)
    (hrest : ∀ c, rest.head? = some c →
      isDigitInBase base c = false ∧ (base = 16 → c ≠ 120 ∧ c ≠ 88)) :
    strtolCore base (sgn ++ (ds ++ rest)) = some (decide (sgn = [45]), digitsVal base ds) := by
  obtain ⟨d0, ds', hds0⟩ : ∃ d0 ds', ds = d0 :: ds' := by
    cases ds with
    | nil => exact absurd rfl hds
    | cons x xs => exact ⟨x, xs, rfl⟩
  subst hds0
  have hd0 := hdig d0 (List.mem_cons_self _ _)
  have hd0sp := digit_not_special base d0 hd0
  have hskip : skipHex16 base (d0 :: (ds' ++ rest)) = d0 :: (ds' ++ rest) := by
    unfold skipHex16
    rw [if_neg]
    rintro ⟨hb16, _, hx, _⟩
    simp only [List.tail_cons] at hx
    cases ds' with
    | nil =>
      simp only [List.nil_append] at hx
      have hex : ∃ c, rest.head? = some c ∧ (c = 120 ∨ c = 88) := by
        rcases hx with hx | hx
        · exact ⟨120, hx, Or.inl rfl⟩
        · exact ⟨88, hx, Or.inr rfl⟩
      obtain ⟨c, hc, hcor⟩ := hex
      have hc2 := (hrest c hc).2 hb16
      rcases hcor with h | h <;> subst h
      · exact hc2.1 rfl
      · exact hc2.2 rfl
    | cons d1 ds2 =>
      simp only [List.cons_append, List.head?_cons, Option.some.injEq] at hx
      have hd1 := hdig d1 (by simp)
      subst hb16
      rcases hx with h | h <;> subst h <;> exact absurd hd1 (by decide)
  have hparse := parseDigitsAcc_append base (d0 :: ds') rest 0 0 hdig
    (fun c hc => (hrest c hc).1)
  rw [List.cons_append] at hparse
  rcases hsgn with h | h | h <;> subst h
  · simp only [List.nil_append, List.cons_append, strtolCore, List.dropWhile_cons,
      hd0sp.1, Bool.false_eq_true, if_false, List.head?_cons, Option.some.injEq,
      hd0sp.2.1, hd0sp.2.2, or_self, if_false, hskip, hparse, List.length_cons,
      Nat.add_eq, Nat.zero_add]
    rw [if_neg (by omega)]
    simp [digitsVal, decide_eq_false hd0sp.2.2]
  · simp only [List.cons_append, List.singleton_append, strtolCore, List.dropWhile_cons,
      show isspaceB 43 = false from rfl, Bool.false_eq_true, if_false,
      List.head?_cons, Option.some.injEq, List.tail_cons]
    simp only [true_or, or_true, if_true, List.nil_append]
    rw [hskip, hparse]
    rw [if_neg (by simp)]
    simp [digitsVal]
  · simp only [List.cons_append, List.singleton_append, strtolCore, List.dropWhile_cons,
      show isspaceB 45 = false from rfl, Bool.false_eq_true, if_false,
      List.head?_cons, Option.some.injEq, List.tail_cons]
    simp only [true_or, or_true, if_true, List.nil_append]
    rw [hskip, hparse]
    rw [if_neg (by simp)]
    simp [digitsVal]

theorem stollM_append (base : Nat) (sgn ds rest : List Nat)
    (hsgn : sgn = [] ∨ sgn = [43] ∨ sgn = [45])
    (hds : ds ≠ [])
    (hdig : ∀ b ∈ ds, isDigitInBase base b = true)
    (hrest : ∀ c, rest.head? = some c →
      isDigitInBase base c = false ∧ (base = 16 → c ≠ 120 ∧ c ≠ 88))
    (hmag : (digitsVal base ds : Int) ≤ 2 ^ 63 - 1) :
    stollM (sgn ++ (ds ++ rest)) base = .ok (signedVal sgn (digitsVal base ds)) := by
  unfold stollM
  rw [strtolCore_append base sgn ds rest hsgn hds hdig hrest]
  have hneg : (digitsVal base ds : Int) ≤ 2 ^ 63 := le_trans hmag (by norm_num)
  rcases hsgn with h | h | h <;> subst h
  · simp only [show decide (([] : List Nat) = [45]) = false from rfl,
      Bool.false_eq_true, if_false]
    rw [if_pos hmag]
    simp [signedVal]
  · simp only [show decide (([43] : List Nat) = [45]) = false from rfl,
      Bool.false_eq_true, if_false]
    rw [if_pos hmag]
    simp [signedVal]
  · simp only [show decide (([45] : List Nat) = [45]) = true from rfl, if_true]
    rw [if_pos hneg]
    simp [signedVal]

theorem stoullM_append (base : Nat) (sgn ds rest : List Nat)
    (hsgn : sgn = [] ∨ sgn = [43])
    (hds : ds ≠ [])
    (hdig : ∀ b ∈ ds, isDigitInBase base b = true)
    (hrest : ∀ c, rest.head? = some c →
      isDigitInBase base c = false ∧ (base = 16 → c ≠ 120 ∧ c ≠ 88))
    (hmag : digitsVal base ds ≤ 2 ^ 64 - 1) :
    stoullM (sgn ++ (ds ++ rest)) base = .ok (digitsVal base ds) := by
  unfold stoullM
  rw [strtolCore_append base sgn ds rest
    (hsgn.elim Or.inl (fun h => Or.inr (Or.inl h))) hds hdig hrest]
  rcases hsgn with h | h <;> subst h
  · simp only [show decide (([] : List Nat) = [45]) = false from rfl,
      Bool.false_eq_true, if_false]
    rw [if_pos hmag]
  · simp only [show decide (([43] : List Nat) = [45]) = false from rfl,
      Bool.false_eq_true, if_false]
    rw [if_pos hmag]

/-! ### Claim theorems -/

/-- C1, counterexample: `toLowerCase` on a `Text` at version 0 converts
the bytes but leaves the version at 0, so the version is not incremented
(the claim asserts it strictly advances on entry). -/
theorem caseConversion_version_counterexample :
    toLowerCase ⟨byteStr "ABC", 0⟩ = ⟨byteStr "abc", 0⟩
    ∧ toUpperCase ⟨byteStr "abc", 0⟩ = ⟨byteStr "ABC", 0⟩ := by
  decide

/-- C1 (amended): the mutating case conversions `toLowerCase` and
`toUpperCase` never touch the version counter — unlike `trim`, which
increments it unconditionally — so cursors issued before a case
conversion are NOT invalidated by it. -/
theorem caseConversion_preserves_version (t : Text) :
    (toLowerCase t).version = t.version
    ∧ (toUpperCase t).version = t.version
    ∧ (trim t).version = t.version + 1 :=
  ⟨rfl, rfl, rfl⟩

/-- C4: evaluating `x > s` for text-like `x` and `String` `s` enters the
global `operator>` forwarder, whose body `rhs > lhs` calls the member
`String::operator>`; that member's body `lhs < StringView(*this)`
resolves back to the global `operator<` forwarder, whose body `rhs > lhs`
re-enters the member `String::operator>`: the call chain never finishes
at any depth (first two conjuncts), while the byte-wise comparison
`s < x` the claim equates it with is well-defined and true at the failing
input (third conjunct). -/
theorem relational_agreement_code_bug :
    (∀ fuel, globalGtF fuel (byteStr "b") (byteStr "a") = none)
    ∧ (∀ fuel x s, memberGtF fuel s x = none ∧ globalLtF fuel x s = none)
    ∧ memberLt (byteStr "a") (byteStr "b") = true := by
  refine ⟨fun fuel => ?_, fun fuel x s => ⟨(memberGtF_globalLtF_none fuel).1 x s,
    (memberGtF_globalLtF_none fuel).2 x s⟩, by decide⟩
  cases fuel with
  | zero => rfl
  | succ n =>
    rw [globalGtF]
    exact (memberGtF_globalLtF_none n).1 _ _

/-- C5, counterexample: the indexed write `text[0] = 'x'` on a `Text` at
version 5 updates the byte but leaves the version at 5, so the version
counter has not strictly advanced across the write (the claim asserts it
has). -/
theorem subscript_write_version_counterexample :
    setChar ⟨byteStr "ab", 5⟩ 0 120 = .ok ⟨byteStr "xb", 5⟩ := by
  rfl

/-- C5 (amended): for every valid index `i` in `[0, length)`, writing
`text[i] = c` and then reading `text[i]` yields `c`, and the version
counter is unchanged across the write (the write goes through a raw
`char&` and cannot bump the version). -/
theorem subscript_write_read (t : Text) (i : Int) (c : Nat)
    (h0 : 0 ≤ i) (h1 : i < (t.data.length : Int)) :
    ∃ t2, setChar t i c = .ok t2 ∧ getChar t2 i = .ok c ∧ t2.version = t.version := by
  have hcond : ¬ (i < 0 ∨ i > (t.data.length : Int) - 1) := by omega
  refine ⟨{ t with data := t.data.set i.toNat c }, ?_, ?_, rfl⟩
  · unfold setChar
    rw [if_neg hcond]
  · unfold getChar
    simp only [List.length_set]
    rw [if_neg hcond]
    have hlt : i.toNat < t.data.length := by omega
    rw [getD_set_self _ _ _ hlt]

/-- C5 witness: the amended statement at `Text ⟨"ab", 7⟩`, `i = 0`,
`c = 'x'`. -/
theorem subscript_write_read_witness :
    (0 : Int) ≤ 0 ∧ (0 : Int) < ((byteStr "ab").length : Int)
    ∧ ∃ t2, setChar ⟨byteStr "ab", 7⟩ 0 120 = .ok t2
        ∧ getChar t2 0 = .ok 120 ∧ t2.version = 7 :=
  ⟨le_refl 0, by decide, subscript_write_read ⟨byteStr "ab", 7⟩ 0 120 (by decide) (by decide)⟩

/-- C8: `replaceAll` with an empty target raises the invalid-argument
error, and `replaceAll("a", "aa")` on `"banana"` terminates with
`"baanaanaa"` (the model's fuel shows termination: each iteration resumes
searching past the freshly inserted text). -/
theorem replaceAll_empty_target_and_banana :
    (∀ s w : List Nat,
      replaceAll s [] w = .error "String::replaceAll: Cannot replace the empty string.")
    ∧ replaceAll (byteStr "banana") (byteStr "a") (byteStr "aa") = .ok (byteStr "baanaanaa") :=
  ⟨fun _ _ => rfl, by rfl⟩

/-- C9: `StringView::operator[]` raises exactly when the index is
negative or exceeds `size()`, and the index `size()` itself is accepted,
returning the terminator byte one position past the last character of the
viewed range. -/
theorem view_subscript_bounds (v : List Nat) (i : Int) :
    ((∃ e, viewGet v i = .error e) ↔ (i < 0 ∨ i > (v.length : Int)))
    ∧ viewGet v (v.length : Int) = .ok 0 := by
  constructor
  · unfold viewGet
    by_cases h : i < 0 ∨ i > (v.length : Int)
    · rw [if_pos h]
      exact ⟨fun _ => h, fun _ => ⟨_, rfl⟩⟩
    · rw [if_neg h]
      constructor
      · rintro ⟨e, he⟩
        split at he <;> simp_all
      · intro hcon
        exact absurd hcon h
  · unfold viewGet
    rw [if_neg (by omega), if_pos rfl]

/-- C10: a start index greater than the length makes `String::find`
return the sentinel -1, and the call raises exactly when the start index
is negative. -/
theorem find_pastEnd_sentinel (s t : List Nat) (i : Int) :
    ((s.length : Int) < i → find s t i = .ok (-1))
    ∧ ((∃ e, find s t i = .error e) ↔ i < 0) := by
  constructor
  · intro h
    unfold find
    rw [if_neg (by omega)]
    rw [strFind_eq_none_of_start_gt s t i.toNat (by omega)]
  · unfold find
    by_cases h : i < 0
    · rw [if_pos h]
      exact ⟨fun _ => h, fun _ => ⟨_, rfl⟩⟩
    · rw [if_neg h]
      constructor
      · rintro ⟨e, he⟩
        split at he <;> simp_all
      · intro hcon
        exact absurd hcon h

/-- C10 witness: the theorem applied to `s = "ab"`, `t = "a"`, start
index 5. -/
theorem find_pastEnd_sentinel_witness :
    ((byteStr "ab").length : Int) < 5
    ∧ find (byteStr "ab") (byteStr "a") 5 = .ok (-1) :=
  ⟨by decide, (find_pastEnd_sentinel (byteStr "ab") (byteStr "a") 5).1 (by decide)⟩

/-- C6: when the delimiter is non-empty and the string has no leading,
trailing, or adjacent delimiter occurrences, `join` over the `split`
result reproduces the string; splitting `",a,,b,"` on `","` coalesces
the empty segments to exactly `["a", "b"]`; and splitting on an empty
delimiter raises. -/
theorem split_join_roundtrip :
    (∀ s d res, d ≠ [] → GoodSplit d s → stringSplit s d = .ok res → join res d = s)
    ∧ stringSplit (byteStr ",a,,b,") (byteStr ",") = .ok [byteStr "a", byteStr "b"]
    ∧ (∀ s, stringSplit s [] = .error "stringSplit: Delimiter cannot be the empty string.") := by
  refine ⟨?_, by rfl, fun s => rfl⟩
  intro s d res hd hg hok
  unfold stringSplit at hok
  rw [if_neg (by simp only [List.length_eq_zero]; exact hd)] at hok
  injection hok with hres
  subst hres
  exact (splitLoop_join d hd (s.length + 1) s (by omega) hg).1

/-- C6 witness: the round trip applied to `s = "a,b"`, `d = ","`. -/
theorem split_join_roundtrip_witness :
    ((byteStr ",") ≠ [] ∧ GoodSplit (byteStr ",") (byteStr "a,b")
      ∧ stringSplit (byteStr "a,b") (byteStr ",") = .ok [byteStr "a", byteStr "b"])
    ∧ join [byteStr "a", byteStr "b"] (byteStr ",") = byteStr "a,b" :=
  ⟨⟨by decide, by unfold GoodSplit; decide, by rfl⟩,
   split_join_roundtrip.1 (byteStr "a,b") (byteStr ",") [byteStr "a", byteStr "b"]
     (by decide) (by unfold GoodSplit; decide) (by rfl)⟩

/-- C7: a radix outside [2, 36] makes `String::is` raise its caller
error; a radix inside the range never raises: the probe returns a
boolean, `true` exactly when the corresponding `String::to` conversion
succeeds and `false` exactly when it raises a conversion error. -/
theorem is_radix_probe (T : IntType) (s : List Nat) (r : Int) :
    ((r < 2 ∨ r > 36) →
      stringIsRadix T s r = .error "String::is: Radix must be between 2 and 36, inclusive.")
    ∧ (2 ≤ r → r ≤ 36 →
        (∃ b, stringIsRadix T s r = .ok b)
        ∧ (stringIsRadix T s r = .ok true ↔ ∃ v, stringToRadix T s r = .ok v)
        ∧ (stringIsRadix T s r = .ok false ↔ ∃ e, stringToRadix T s r = .error e)) := by
  constructor
  · intro h
    unfold stringIsRadix
    rw [if_pos h]
  · intro h2 h36
    unfold stringIsRadix
    rw [if_neg (by omega)]
    rcases hres : stringToRadix T s r with e | v
    · exact ⟨⟨false, rfl⟩, by simp, by simp⟩
    · exact ⟨⟨true, rfl⟩, by simp, by simp⟩

/-- C7 witness: the theorem applied to `T = int`, `s = "12"`, radices 10
and 99. -/
theorem is_radix_probe_witness :
    ((2 : Int) ≤ 10 ∧ ∃ b, stringIsRadix intT (byteStr "12") 10 = .ok b)
    ∧ ((99 : Int) > 36 ∧ stringIsRadix intT (byteStr "12") 99
        = .error "String::is: Radix must be between 2 and 36, inclusive.") :=
  ⟨⟨by decide, ((is_radix_probe intT (byteStr "12") 10).2 (by decide) (by decide)).1⟩,
   ⟨by decide, (is_radix_probe intT (byteStr "12") 99).1 (Or.inr (by decide))⟩⟩

/-- C3, counterexample: the byte 0xFF is neither alphanumeric, nor in the
unreserved set, nor a space, yet `urlEncoded` renders it as `'%'`
followed by EIGHT hex digits (`char` is signed, so `int(c)` is -1 and the
stream prints its 32-bit pattern FFFFFFFF), not the two zero-padded
digits `%FF` the claim requires. -/
theorem urlEncoded_high_byte_counterexample :
    urlEncoded [255] = byteStr "%FFFFFFFF" ∧ urlEncoded [255] ≠ byteStr "%FF" := by
  decide

/-- C3 (amended): per-byte, `urlEncoded` passes alphanumerics and the
unreserved set `- _ . ~ *` through, maps space to `+`, and renders every
other byte BELOW 0x80 as `'%'` plus exactly two uppercase zero-padded hex
digits; a byte at or above 0x80 promotes to a negative `int` and is
rendered as `'%'` plus the eight uppercase hex digits `FFFFFFxx` of its
32-bit two's-complement pattern. The encoding of a string is the
concatenation of its per-byte encodings. -/
theorem urlEncoded_byte_classes (b : Nat) (hb : b < 256) :
    ((isalnumB b = true ∨ b = 45 ∨ b = 95 ∨ b = 46 ∨ b = 126 ∨ b = 42) → urlEncoded [b] = [b])
    ∧ (b = 32 → urlEncoded [b] = [43])
    ∧ (isalnumB b = false → ¬ (b = 45 ∨ b = 95 ∨ b = 46 ∨ b = 126 ∨ b = 42) → b ≠ 32 →
        b < 128 → urlEncoded [b] = [37, hexDigitU (b / 16), hexDigitU (b % 16)])
    ∧ (128 ≤ b →
        urlEncoded [b] = [37, 70, 70, 70, 70, 70, 70, hexDigitU (b / 16), hexDigitU (b % 16)])
    ∧ (∀ s t : List Nat, urlEncoded (s ++ t) = urlEncoded s ++ urlEncoded t) := by
  have key1 : ∀ x, x < 256 →
      ((isalnumB x = true ∨ x = 45 ∨ x = 95 ∨ x = 46 ∨ x = 126 ∨ x = 42) → urlEncoded [x] = [x])
      ∧ (x = 32 → urlEncoded [x] = [43]) := by
    decide
  have key2 : ∀ x, x < 256 →
      (isalnumB x = false ∧ ¬ (x = 45 ∨ x = 95 ∨ x = 46 ∨ x = 126 ∨ x = 42) ∧ x ≠ 32
          ∧ x < 128 → urlEncoded [x] = [37, hexDigitU (x / 16), hexDigitU (x % 16)]) := by
    decide
  have key3 : ∀ x, x < 256 →
      (128 ≤ x →
          urlEncoded [x] = [37, 70, 70, 70, 70, 70, 70, hexDigitU (x / 16), hexDigitU (x % 16)]) := by
    decide
  exact ⟨(key1 b hb).1, (key1 b hb).2,
    fun h1 h2 h3 h4 => key2 b hb ⟨h1, h2, h3, h4⟩, key3 b hb,
    fun s t => by simp [urlEncoded, List.map_append]⟩

/-- C3 witness: the amended statement at the high byte 0xFF and at the
low byte 0x40 (`'@'`). -/
theorem urlEncoded_byte_classes_witness :
    (128 ≤ 255 ∧ urlEncoded [255]
        = [37, 70, 70, 70, 70, 70, 70, hexDigitU (255 / 16), hexDigitU (255 % 16)])
    ∧ (urlEncoded [64] = [37, hexDigitU (64 / 16), hexDigitU (64 % 16)]) :=
  ⟨⟨by decide, (urlEncoded_byte_classes 255 (by decide)).2.2.2.1 (by decide)⟩,
   (urlEncoded_byte_classes 64 (by decide)).2.2.1 (by decide) (by decide) (by decide) (by decide)⟩

/-- C1 witness: the amended statement at concrete `Text` values. -/
theorem caseConversion_preserves_version_witness :
    (toLowerCase ⟨byteStr "MiXeD", 3⟩).version = 3
    ∧ (trim ⟨byteStr " a ", 3⟩).version = 4 :=
  ⟨(caseConversion_preserves_version ⟨byteStr "MiXeD", 3⟩).1,
   (caseConversion_preserves_version ⟨byteStr " a ", 3⟩).2.2⟩

/-- C8 witness: the empty-target conjunct applied at a concrete input. -/
theorem replaceAll_empty_target_witness :
    replaceAll (byteStr "x") [] (byteStr "y")
      = .error "String::replaceAll: Cannot replace the empty string." :=
  replaceAll_empty_target_and_banana.1 (byteStr "x") (byteStr "y")

/-- C9 witness: the theorem applied to the view `"ab"`, whose size-index
access returns the terminator. -/
theorem view_subscript_bounds_witness :
    viewGet (byteStr "ab") (((byteStr "ab").length : Int)) = .ok 0 :=
  (view_subscript_bounds (byteStr "ab") 0).2

/-- C4 witness: the divergence fact applied at call depth 5. -/
theorem relational_agreement_code_bug_witness :
    globalGtF 5 (byteStr "b") (byteStr "a") = none :=
  relational_agreement_code_bug.1 5

/-- C2, counterexample: converting `"12xy"` with radix 10 to `int` does
NOT raise. `radixTo` hands `std::stoll` a null position pointer, so the
parse stops at the first non-digit without any leftover check and the
call returns 12 despite the unconsumed `"xy"` (the claim requires it to
raise). -/
theorem to_radix_trailing_counterexample :
    stringToRadix intT (byteStr "12xy") 10 = .ok 12 := by
  rfl

/-- C2 (amended): with a radix in [2, 36], the radix overload of
`String::to` for any integral type T parses the maximal numeric token at
the front of the trimmed content and IGNORES any unconsumed trailing
characters. Conjunct 1 (signed T): whenever the trimmed content splits as
sign ++ digits ++ rest with an optional `+`/`-` sign and a maximal
non-empty digit run (for radix 16, rest must not extend a lone `0` into a
`0x` prefix), the intermediate value within `long long`, and the signed
value within T's range, the conversion succeeds with that value no matter
what `rest` holds. Conjunct 2 (unsigned T): the same with an optional `+`
sign only, the intermediate within `unsigned long long`, and the value
within T's range. Conjunct 3 (unsigned T): a leading minus sign on the
trimmed content always raises the conversion error, even when the digits
after it would parse and the value would be representable (e.g. `"-0"`). -/
theorem stringToRadix_ignores_trailing :
    (∀ (T : IntType) (s sgn ds rest : List Nat) (r : Int),
      T.signed = true → 2 ≤ r → r ≤ 36 →
      trimL s = sgn ++ (ds ++ rest) →
      (sgn = [] ∨ sgn = [43] ∨ sgn = [45]) →
      ds ≠ [] →
      (∀ b ∈ ds, isDigitInBase r.toNat b = true) →
      (∀ c, rest.head? = some c →
        isDigitInBase r.toNat c = false ∧ (r.toNat = 16 → c ≠ 120 ∧ c ≠ 88)) →
      (digitsVal r.toNat ds : Int) ≤ 2 ^ 63 - 1 →
      T.tmin ≤ signedVal sgn (digitsVal r.toNat ds) →
      signedVal sgn (digitsVal r.toNat ds) ≤ T.tmax →
      stringToRadix T s r = .ok (signedVal sgn (digitsVal r.toNat ds)))
    ∧ (∀ (T : IntType) (s sgn ds rest : List Nat) (r : Int),
      T.signed = false → 2 ≤ r → r ≤ 36 →
      trimL s = sgn ++ (ds ++ rest) →
      (sgn = [] ∨ sgn = [43]) →
      ds ≠ [] →
      (∀ b ∈ ds, isDigitInBase r.toNat b = true) →
      (∀ c, rest.head? = some c →
        isDigitInBase r.toNat c = false ∧ (r.toNat = 16 → c ≠ 120 ∧ c ≠ 88)) →
      digitsVal r.toNat ds ≤ 2 ^ 64 - 1 →
      T.tmin ≤ (digitsVal r.toNat ds : Int) →
      (digitsVal r.toNat ds : Int) ≤ T.tmax →
      stringToRadix T s r = .ok ((digitsVal r.toNat ds : Int)))
    ∧ (∀ (T : IntType) (s : List Nat) (r : Int),
      T.signed = false → 2 ≤ r → r ≤ 36 →
      (trimL s).head? = some 45 →
      stringToRadix T s r = .error "String::to: Could not convert string to that type.") := by
  refine ⟨?_, ?_, ?_⟩
  · intro T s sgn ds rest r hT hr2 hr36 htrim hsgn hds hdig hrest hmag hlo hhi
    unfold stringToRadix
    rw [if_neg (by omega), htrim]
    unfold radixTo
    rw [hT]
    simp only [if_true]
    rw [stollM_append r.toNat sgn ds rest hsgn hds hdig hrest hmag]
    simp only []
    rw [if_pos ⟨hlo, hhi⟩]
  · intro T s sgn ds rest r hT hr2 hr36 htrim hsgn hds hdig hrest hmag hlo hhi
    obtain ⟨d0, ds', hds0⟩ : ∃ d0 ds', ds = d0 :: ds' := by
      cases ds with
      | nil => exact absurd rfl hds
      | cons x xs => exact ⟨x, xs, rfl⟩
    have hd0 : isDigitInBase r.toNat d0 = true := by
      subst hds0
      exact hdig d0 (List.mem_cons_self _ _)
    have hd0sp := digit_not_special r.toNat d0 hd0
    have hguard : ¬ (sgn ++ (ds ++ rest) = [] ∨ (sgn ++ (ds ++ rest)).head? = some 45) := by
      subst hds0
      rintro (habs | habs)
      · rcases hsgn with h | h <;> subst h <;> simp at habs
      · rcases hsgn with h | h <;> subst h <;>
          simp only [List.nil_append, List.cons_append, List.singleton_append,
            List.head?_cons, Option.some.injEq] at habs
        · exact hd0sp.2.2 habs
        · omega
    unfold stringToRadix
    rw [if_neg (by omega), htrim]
    unfold radixTo
    rw [hT]
    simp only [Bool.false_eq_true, if_false]
    rw [if_neg hguard]
    rw [stoullM_append r.toNat sgn ds rest hsgn hds hdig hrest hmag]
    simp only []
    rw [if_pos ⟨hlo, hhi⟩]
  · intro T s r hT hr2 hr36 hhead
    unfold stringToRadix
    rw [if_neg (by omega)]
    unfold radixTo
    rw [hT]
    simp only [Bool.false_eq_true, if_false]
    rw [if_pos (Or.inr hhead)]

/-- C2 witness: the amended statement at concrete inputs. Signed: `s =
"12xy"`, radix 10, `T = int` — the token `"12"` parses to 12 and the
trailing `"xy"` is ignored. Unsigned: `s = "34zz"`, radix 10, `T =
unsigned int` — the token `"34"` parses to 34 and `"zz"` is ignored;
`s = "-0"` raises despite the parseable, representable digit. -/
theorem stringToRadix_ignores_trailing_witness :
    (trimL (byteStr "12xy") = [] ++ (byteStr "12" ++ byteStr "xy")
      ∧ stringToRadix intT (byteStr "12xy") 10
          = .ok (signedVal [] (digitsVal (10 : Int).toNat (byteStr "12"))))
    ∧ stringToRadix uintT (byteStr "34zz") 10
        = .ok ((digitsVal (10 : Int).toNat (byteStr "34") : Int))
    ∧ stringToRadix uintT (byteStr "-0") 10
        = .error "String::to: Could not convert string to that type." :=
  ⟨⟨by rfl,
    stringToRadix_ignores_trailing.1 intT (byteStr "12xy") [] (byteStr "12") (byteStr "xy") 10
      rfl (by decide) (by decide) (by rfl) (Or.inl rfl) (by decide)
      (by decide)
      (fun c hc => by
        simp only [show (byteStr "xy").head? = some 120 from rfl, Option.some.injEq] at hc
        subst hc
        exact ⟨by decide, fun h => absurd h (by decide)⟩)
      (by decide) (by decide) (by decide)⟩,
   stringToRadix_ignores_trailing.2.1 uintT (byteStr "34zz") [] (byteStr "34") (byteStr "zz") 10
     rfl (by decide) (by decide) (by rfl) (Or.inl rfl) (by decide)
     (by decide)
     (fun c hc => by
       simp only [show (byteStr "zz").head? = some 122 from rfl, Option.some.injEq] at hc
       subst hc
       exact ⟨by decide, fun h => absurd h (by decide)⟩)
     (by decide) (by decide) (by decide),
   stringToRadix_ignores_trailing.2.2 uintT (byteStr "-0") 10 rfl (by decide) (by decide)
     (by rfl)⟩

end CppStr
